import Mathlib

/-!
Verification of the drying_paint reactive runtime (single-threaded
frame scheduler with generation-counted watches).

The definitions below are a shallow embedding of the Rust sources:

* `src/context.rs`   — `WatchContext::update`, the double-buffered drain loop
* `src/trigger.rs`   — `WatchRef::execute`, `WatchSet` (chunked subscriber
                       list), `WatchArg::use_as_current`
* `src/watched_core.rs` — `WatchedMeta::trigger`, `WatchedCore::set_if_neq`,
                       `WatchedCellCore::set_if_neq`
* `src/sync.rs`      — `SyncWatchedMeta::watched`, `SyncContext`

Watch identity (the stable heap address of the `Rc<WatchData>`) is modelled
by a natural number; a null pointer is `0` and real allocations are positive.
`usize` values are naturals reduced mod `2^64` where overflow matters.
User watch bodies are abstracted by an oracle `body : Nat → Nat → List TW`
giving the list of triggered-watch entries a body pushes onto the pending
frame when the watch with a given address runs at a given generation
(bodies can only append to the pending `next_frame`; the frame being
drained is a moved-out local vector the body cannot reach).
-/

namespace DryingPaint

/-- Width of `usize` in the model (the crate targets 64-bit platforms;
`FLAG_COUNT = size_of::<usize>() * 8 = 64`). -/
def USIZE : Nat := 2 ^ 64

/-- Number of flag bits in `SyncContext` (`sync.rs: FLAG_COUNT`). -/
def FLAG_COUNT : Nat := 64

/-- A queued `TriggeredWatch`: the watch's address plus the generation
("cycle") captured when the reference was created (`trigger.rs:
WatchRef { watch, cycle }`; the `TriggerReason` is diagnostic-only data
and does not influence scheduling). -/
structure TW where
  watch : Nat
  cycle : Nat
deriving DecidableEq, Repr

/-- The generation counter of every watch, indexed by address
(`WatchData.cycle` in `trigger.rs`). -/
def Cycles := Nat → Nat

/-- Effect of `WatchRef::execute` (trigger.rs lines 263-272) on the
generation map: if the captured cycle equals the watch's current cycle the
watch is fresh, and its counter is incremented (with `wrapping_add`). -/
def stepCycles (σ : Cycles) (t : TW) : Cycles :=
  if t.cycle = σ t.watch then
    fun w => if w = t.watch then (σ t.watch + 1) % USIZE else σ w
  else σ

/-- Number of entries of a frame that refer to watch `W` and actually
execute (pass the freshness check) when the frame is drained in order. -/
def execCount : List TW → Cycles → Nat → Nat
  | [], _, _ => 0
  | t :: ts, σ, W =>
    (if t.cycle = σ t.watch ∧ t.watch = W then 1 else 0)
      + execCount ts (stepCycles σ t) W

/-- One step of the drain loop body: `item.execute(self)`
(context.rs line 158-160, trigger.rs 263-272).  A fresh item increments
its watch's generation and runs the user body, which appends entries to
the pending `next_frame`; a stale item is skipped. -/
def execOne (body : Nat → Nat → List TW) (acc : Cycles × List TW) (t : TW) :
    Cycles × List TW :=
  if t.cycle = acc.1 t.watch then
    (fun w => if w = t.watch then (acc.1 t.watch + 1) % USIZE else acc.1 w,
      acc.2 ++ body t.watch t.cycle)
  else acc

/-- Draining one frame: every item executes in insertion order; newly
triggered entries accumulate in the (initially empty) `next_frame`. -/
def drainFrame (body : Nat → Nat → List TW) (cur : List TW) (σ : Cycles) :
    Cycles × List TW :=
  cur.foldl (execOne body) (σ, [])

/-- State after `k` successive drain iterations starting from generation
map `σ` and current frame `cur`. -/
def iterDrain (body : Nat → Nat → List TW) :
    Nat → Cycles × List TW → Cycles × List TW
  | 0, s => s
  | k + 1, (σ, cur) => iterDrain body k (drainFrame body cur σ)

/-- The literal panic message used by `WatchContext::update`
(context.rs lines 138-142). -/
def panicMsgStr : String :=
  "\nUpdating a WatchContext exceeded its limit for iteration.\nSee `WatchContext::set_frame_limit` for more information.\nThis usually means there are cyclical watch triggers."

/-- Data captured by the `CycleDiagnostic` and handed to `do_panic`:
the frames tracked while `frame_limit < 5` plus the final frame
(cycle_debug.rs `track_frame` / `do_panic`). -/
structure DiagPayload where
  tracked : List (List TW)
  finalFrame : List TW
deriving DecidableEq, Repr

/-- A panic raised by the frame-limit check: the base message, and in
diagnostic builds the diagnostic data whose rendering is appended to the
panic message by `CycleDiagnostic::do_panic`. -/
structure PanicM where
  base : String
  diag : Option DiagPayload

/-- The `Some(frame_limit)` branch of `WatchContext::update`
(context.rs lines 137-164): while the current frame is non-empty, track
the frame into the diagnostic when fewer than 5 iterations remain
(diagnostic builds), panic when the limit is exhausted, otherwise drain
the frame, swap buffers and decrement the limit.  Returns the final
generation map, the `next_frame` and `other_frame` contents at return,
and the number of drain iterations performed. -/
def updateSome (body : Nat → Nat → List TW) (debug : Bool) :
    Nat → List TW → Cycles → List (List TW) →
    Except PanicM (Cycles × List TW × List TW × Nat)
  | limit, cur, σ, tracked =>
    if cur = [] then
      .ok (σ, [], [], 0)
    else
      let tracked' :=
        if debug && decide (limit < 5) then tracked ++ [cur] else tracked
      match limit with
      | 0 =>
          .error ⟨panicMsgStr, if debug then some ⟨tracked', cur⟩ else none⟩
      | n + 1 =>
          Except.map (fun x => (x.1, x.2.1, x.2.2.1, x.2.2.2 + 1))
            (updateSome body debug n (drainFrame body cur σ).2
              (drainFrame body cur σ).1 tracked')

/-- The `None` branch of `WatchContext::update` (context.rs lines
165-173): the same drain loop with no limit check and no panic.  The
loop may not terminate; `fuel` bounds the modelled iterations and
`none` stands for a run that has not yet reached fixpoint. -/
def updateNoneE (body : Nat → Nat → List TW) :
    Nat → List TW → Cycles →
    Option (Except PanicM (Cycles × List TW × List TW))
  | fuel, cur, σ =>
    if cur = [] then
      some (.ok (σ, [], []))
    else
      match fuel with
      | 0 => none
      | f + 1 =>
          let s := drainFrame body cur σ
          updateNoneE body f s.2 s.1

/-- Iteration count of an `updateSome` outcome (a panic outcome performed
exactly the limit's worth of iterations, which the statements bound
separately). -/
def itersOf : Except PanicM (Cycles × List TW × List TW × Nat) → Nat
  | .ok (_, _, _, k) => k
  | .error _ => 0

/-- Whether an `updateSome` outcome is the frame-limit panic. -/
def isPanic : Except PanicM (Cycles × List TW × List TW × Nat) → Bool
  | .ok _ => false
  | .error _ => true

/-- Base message of the panic, when the outcome panicked. -/
def panicBase : Except PanicM (Cycles × List TW × List TW × Nat) →
    Option String
  | .ok _ => none
  | .error e => some e.base

/-- Whether the panic carries the cycle-diagnostic payload. -/
def panicHasDiag : Except PanicM (Cycles × List TW × List TW × Nat) → Bool
  | .ok _ => false
  | .error e => e.diag.isSome

/-- `next_frame` contents at normal return of the limited loop. -/
def nextOf : Except PanicM (Cycles × List TW × List TW × Nat) →
    Option (List TW)
  | .ok (_, nf, _, _) => some nf
  | .error _ => none

/-- `other_frame` contents at normal return of the limited loop. -/
def otherOf : Except PanicM (Cycles × List TW × List TW × Nat) →
    Option (List TW)
  | .ok (_, _, of, _) => some of
  | .error _ => none

/-- Whether an unlimited-loop outcome is a panic (no constructor of the
`None` branch ever produces one). -/
def isPanicOpt : Option (Except PanicM (Cycles × List TW × List TW)) → Bool
  | some (.error _) => true
  | _ => false

/-! ## WatchSet (trigger.rs lines 348-521)

A `WatchSet` is a chunked singly-linked list of nodes, each holding four
`Option<WatchRef>` slots.  A node is modelled as a `List (Option RefM)`
(well-formed states have length 4, mirroring the `[Option<WatchRef>; 4]`
array), the chain as the head node plus the list of trailing nodes, and
the head's weak pointer to the scheduler's pending frame by an `alive`
flag supplied at trigger time (a `Weak` upgrade succeeds exactly while
the scheduler is alive). -/

/-- A `WatchRef` (trigger.rs lines 249-252): the watch's heap address and
the generation captured when the reference was made.  A real `Rc` address
is never null, so well-formed refs have `0 < ptr`. -/
structure RefM where
  ptr : Nat
  cycle : Nat
deriving DecidableEq, Repr

/-- Sort key used by `WatchRef::sort_slot` (trigger.rs lines 274-299):
the slot's watch address, with an empty slot comparing as the null
pointer. -/
def slotKey : Option RefM → Nat
  | none => 0
  | some w => w.ptr

/-- `WatchRef::sort_slot(target, held, newest_cycle)` with `held`
guaranteed occupied by the caller: on `Greater` the carried ref is stored
and the occupant carried onward; on `Less` nothing changes; on `Equal`
the slot's generation is set to `newest_cycle` and the carried ref is
dropped (merged). -/
def sortSlot (target : Option RefM) (held : RefM) (newc : Nat) :
    Option RefM × Option RefM :=
  if slotKey target > held.ptr then
    (some held, target)
  else if slotKey target < held.ptr then
    (target, some held)
  else
    (target.map fun w => { w with cycle := newc }, none)

/-- The insertion pass of `WatchSet::add` (trigger.rs lines 428-433) over
the head node's slots **in reverse order** (`data.iter_mut().rev()`):
`sortSlot` is applied slot by slot, stopping as soon as the carried ref
has been merged.  Returns the updated (still reversed) slots and the ref
left in hand after the pass, if any. -/
def addPassRev : List (Option RefM) → RefM → Nat →
    List (Option RefM) × Option RefM
  | [], r, _ => ([], some r)
  | s :: rest, r, c =>
    match sortSlot s r c with
    | (s', none) => (s' :: rest, none)
    | (s', some r') =>
        let t := addPassRev rest r' c
        (s' :: t.1, t.2)

/-- The head of a `WatchSet` (trigger.rs `WatchSetHead`): the first node
(the only one `add` touches), the chain of trailing nodes, and the `u32`
node count. -/
structure HeadM where
  data : List (Option RefM)
  rest : List (List (Option RefM))
  nodes : Nat
deriving DecidableEq, Repr

/-- A `WatchSet`: `None` while no head has been allocated. -/
structure WatchSetM where
  list : Option HeadM
deriving DecidableEq, Repr

/-- A node with four empty slots (`WatchSetNode::default()`). -/
def emptyNode : List (Option RefM) := [none, none, none, none]

/-- A fresh, unallocated `WatchSet` (`WatchSet::new`). -/
def WatchSetM.empty : WatchSetM := ⟨none⟩

/-- The occupied entries of a node, in slot order. -/
def nodeEntries (n : List (Option RefM)) : List RefM := n.filterMap id

/-- All occupied entries of a set, in traversal order (head node first,
then the trailing chain), as read by `trigger_filtered` and `squash`. -/
def setEntries (s : WatchSetM) : List RefM :=
  match s.list with
  | none => []
  | some head => ((head.data :: head.rest).map nodeEntries).flatten

/-- Floor base-2 logarithm (`usize::ilog2`), written with explicit fuel
so the recursion is structural: `ilog2Aux fuel n` halves `n` until it
drops below 2, and `fuel = n` always suffices. -/
def ilog2Aux : Nat → Nat → Nat
  | 0, _ => 0
  | fuel + 1, n => if 2 ≤ n then ilog2Aux fuel (n / 2) + 1 else 0

/-- `usize::ilog2` (floor log2) of a positive argument. -/
def ilog2 (n : Nat) : Nat := ilog2Aux n n

/-- The node-count threshold of `WatchSet::add` (trigger.rs lines
411-415): `min(u32::try_from(total).unwrap_or(u32::MAX).saturating_add(1),
(max(total,1).ilog2() + 1) * 64)` in `u32` arithmetic. -/
def nodeLimit (total : Nat) : Nat :=
  let small := min (min total (2 ^ 32 - 1) + 1) (2 ^ 32 - 1)
  let big := (ilog2 (max total 1) + 1) * 64
  min small big

/-- Whether a ref is fresh (`WatchRef::is_fresh`, trigger.rs lines
259-261): its captured generation equals the watch's current one. -/
def isFresh (σ : Cycles) (w : RefM) : Bool := w.cycle = σ w.ptr

/-- Stable sort by watch address (`refs.sort_by_key(|w| Rc::as_ptr(..))`
in `squash`): insertion sort places each earlier element in front of
later elements with an equal key, the behaviour Rust's stable sort
guarantees. -/
def sortByPtr (l : List RefM) : List RefM :=
  List.insertionSort (fun a b => a.ptr ≤ b.ptr) l

instance : IsTotal RefM fun a b => a.ptr ≤ b.ptr :=
  ⟨fun a b => Nat.le_total a.ptr b.ptr⟩

instance : IsTrans RefM fun a b => a.ptr ≤ b.ptr :=
  ⟨fun _ _ _ => Nat.le_trans⟩

/-- Rust's `Vec::dedup_by_key`: drop all but the first of each run of
consecutive elements with the same key. -/
def dedupAdjByPtr : List RefM → List RefM
  | [] => []
  | a :: rest => a :: dedupAdjByPtr (rest.dropWhile fun b => b.ptr = a.ptr)
  termination_by l => l.length
  decreasing_by
    simp only [List.length_cons]
    exact Nat.lt_succ_of_le (List.dropWhile_sublist _).length_le

/-- Split a list into its exact chunks of four (`chunks_exact_mut(4)`);
a trailing partial chunk is not produced. -/
def chunks4 : List RefM → List (List RefM)
  | a :: b :: c :: d :: rest => [a, b, c, d] :: chunks4 rest
  | _ => []

/-- `WatchSet::squash` (trigger.rs lines 484-520): collect every live
ref in traversal order, stable-sort by watch address, deduplicate
consecutive (hence, after sorting, all) refs to the same watch keeping
the first (most recently added), drop stale refs, and repack: the first
`len % 4` survivors fill the tail of the head node, the rest fill
successive full nodes; the node count becomes `1 +` the number of full
nodes. -/
def WatchSetM.squash (s : WatchSetM) (σ : Cycles) : WatchSetM :=
  match s.list with
  | none => s
  | some head =>
    let collected := ((head.data :: head.rest).map nodeEntries).flatten
    let survivors := (dedupAdjByPtr (sortByPtr collected)).filter (isFresh σ)
    let rem := survivors.length % 4
    let newData :=
      List.replicate (4 - rem) (none : Option RefM)
        ++ (survivors.take rem).map some
    let fullNodes := (chunks4 (survivors.drop rem)).map (List.map some)
    ⟨some ⟨newData, fullNodes, 1 + fullNodes.length⟩⟩

/-- `WatchSet::add` (trigger.rs lines 405-444): ensure a head exists,
record whether to squash (head slot 0 empty and node count above the
threshold, judged **before** the insertion), run the insertion pass over
the head node from tail to head, push any leftover ref in the last slot
of a fresh node placed in front of the old head node, and finally squash
when the recorded flag was set.  `σ` is the live generation map consulted
by `squash`'s staleness check. -/
def WatchSetM.add (s : WatchSetM) (r : RefM) (total : Nat) (σ : Cycles) :
    WatchSetM :=
  let head := s.list.getD ⟨emptyNode, [], 1⟩
  let squashFlag :=
    head.data.head? = some none ∧ head.nodes > nodeLimit total
  let pass := addPassRev head.data.reverse r r.cycle
  let head' : HeadM :=
    match pass.2 with
    | none => { head with data := pass.1.reverse }
    | some w =>
        ⟨[none, none, none, some w], pass.1.reverse :: head.rest,
          head.nodes + 1⟩
  let s' : WatchSetM := ⟨some head'⟩
  if squashFlag then s'.squash σ else s'

/-- `WatchSet::trigger_filtered` (trigger.rs lines 446-470): take the
whole chain out of the set (leaving it empty in every case); when the
weak pending-frame handle still upgrades, push each entry passing the
filter onto the pending frame in traversal order; refs rejected by the
filter, and all refs when the upgrade fails, are silently dropped. -/
def triggerFiltered (s : WatchSetM) (alive : Bool) (pend : List TW)
    (filter : RefM → Bool) : WatchSetM × List TW :=
  match s.list with
  | none => (⟨none⟩, pend)
  | some head =>
    if alive then
      (⟨none⟩,
        pend ++ ((((head.data :: head.rest).map nodeEntries).flatten).filter
          filter).map fun r => TW.mk r.ptr r.cycle)
    else (⟨none⟩, pend)

/-- `WatchSet::trigger_with_current` (trigger.rs lines 472-478): drain
with the filter `!to_add.watch_eq(current)` (address inequality). -/
def triggerWithCurrent (s : WatchSetM) (current : Nat) (alive : Bool)
    (pend : List TW) : WatchSetM × List TW :=
  triggerFiltered s alive pend fun r => !(r.ptr == current)

/-- `WatchSet::trigger_external` (trigger.rs lines 480-482): drain with
the accept-all filter. -/
def triggerExternal (s : WatchSetM) (alive : Bool) (pend : List TW) :
    WatchSetM × List TW :=
  triggerFiltered s alive pend fun _ => true

/-- Node count of a set (`WatchSetHead.nodes`), `0` when unallocated. -/
def nodesOf : WatchSetM → Nat
  | ⟨none⟩ => 0
  | ⟨some head⟩ => head.nodes

/-- Place a ref into the first empty slot of a slot list. -/
def placeFirstEmpty : List (Option RefM) → RefM → List (Option RefM)
  | [], _ => []
  | none :: rest, r => some r :: rest
  | some w :: rest, r => some w :: placeFirstEmpty rest r

/-- Modelled from the claim's wording, **not** from the source, for
comparison with `WatchSetM.add`: "`add` places the new WatchRef into the
first empty slot of the head node scanning from tail to head, merging a
duplicate entry for the same watch (compared by heap address) by keeping
the most recent generation".  A full head node (which the claim leaves
unspecified) is returned unchanged; the comparison below only exercises
a head node with empty slots. -/
def addSpecClaim (s : WatchSetM) (r : RefM) : WatchSetM :=
  let head := s.list.getD ⟨emptyNode, [], 1⟩
  let rev := head.data.reverse
  let rev' :=
    if rev.any fun o => slotKey o = r.ptr then
      rev.map fun o => if slotKey o = r.ptr then some r else o
    else if rev.any fun o => o = none then
      placeFirstEmpty rev r
    else rev
  ⟨some { head with data := rev'.reverse }⟩

/-- The head produced by `WatchSet::add`'s insertion phase (before any
compaction): the pass over the head node's slots, with a leftover ref
placed in the last slot of a fresh node pushed in front of the old head
node. -/
def insertedHead (head : HeadM) (r : RefM) : HeadM :=
  match (addPassRev head.data.reverse r r.cycle).2 with
  | none =>
      { head with data := (addPassRev head.data.reverse r r.cycle).1.reverse }
  | some w =>
      ⟨[none, none, none, some w],
        (addPassRev head.data.reverse r r.cycle).1.reverse :: head.rest,
        head.nodes + 1⟩

/-! ## WatchedMeta / WatchedCore / WatchedCellCore (watched_core.rs) -/

/-- A `WatchedMeta` (watched_core.rs lines 15-17): a bare subscriber
set. -/
structure WatchedMetaM where
  watchers : WatchSetM
deriving DecidableEq, Repr

/-- `WatchedMeta::trigger(ctx)` (watched_core.rs lines 54-58): drain the
subscriber set into the pending frame, filtering out the currently
running watch (`trigger_with_current(ctx.watch, ..)`). -/
def WatchedMetaM.trigger (m : WatchedMetaM) (current : Nat) (alive : Bool)
    (pend : List TW) : WatchedMetaM × List TW :=
  let t := triggerWithCurrent m.watchers current alive pend
  (⟨t.1⟩, t.2)

/-- `WatchedMeta::trigger_external()` (watched_core.rs lines 60-64). -/
def WatchedMetaM.triggerExt (m : WatchedMetaM) (alive : Bool)
    (pend : List TW) : WatchedMetaM × List TW :=
  let t := triggerExternal m.watchers alive pend
  (⟨t.1⟩, t.2)

/-- A `WatchedCore<T>` (watched_core.rs lines 89-92): a value of user
type paired with a `WatchedMeta`. -/
structure WatchedCoreM (α : Type) where
  meta : WatchedMetaM
  value : α

/-- `WatchedCore::set_if_neq(value, ctx)` (watched_core.rs lines
155-163): when the stored value differs from the new one by `PartialEq`,
store the new value and notify via `meta.trigger(ctx)`; otherwise do
nothing at all. -/
def WatchedCoreM.setIfNeq [DecidableEq α] (c : WatchedCoreM α) (v : α)
    (current : Nat) (alive : Bool) (pend : List TW) :
    WatchedCoreM α × List TW :=
  if c.value ≠ v then
    let t := c.meta.trigger current alive pend
    (⟨t.1, v⟩, t.2)
  else (c, pend)

/-- A `WatchedCellCore<T>` (watched_core.rs lines 255-258): the same
pairing with a `Cell`-held value (interior mutability is invisible to
the functional model). -/
structure WatchedCellCoreM (α : Type) where
  meta : WatchedMetaM
  value : α

/-- `WatchedCellCore::set(value, ctx)` (watched_core.rs lines 327-331):
trigger, then store. -/
def WatchedCellCoreM.set (c : WatchedCellCoreM α) (v : α) (current : Nat)
    (alive : Bool) (pend : List TW) : WatchedCellCoreM α × List TW :=
  let t := c.meta.trigger current alive pend
  (⟨t.1, v⟩, t.2)

/-- `WatchedCellCore::set_if_neq(value, ctx)` (watched_core.rs lines
373-381): call `set` exactly when the current value differs by
`PartialEq`. -/
def WatchedCellCoreM.setIfNeq [DecidableEq α] (c : WatchedCellCoreM α)
    (v : α) (current : Nat) (alive : Bool) (pend : List TW) :
    WatchedCellCoreM α × List TW :=
  if c.value ≠ v then c.set v current alive pend else (c, pend)

/-! ## `WatchArg::use_as_current` (trigger.rs lines 149-162)

The thread-local slot `CURRENT_ARG` holds an `Option<OwnedWatchArg>`;
the installed argument is modelled by an arbitrary type `α` and a
panicking user closure by an `Except ε ρ` outcome.  The code reads

```
let prev = cell.replace(Some(to_set));
let ret = f();
cell.set(prev);
ret
```

with no drop guard, so `cell.set(prev)` runs only when `f()` returns
normally; when `f()` unwinds, the slot keeps the freshly installed
argument. -/

/-- `WatchArg::use_as_current`: given the prior slot contents, the
argument being installed and the outcome of the user closure, returns
the slot contents after the call finishes (normally or by unwinding)
and the propagated outcome. -/
def useAsCurrent (prev : Option α) (toSet : α) (f : Except ε ρ) :
    Option α × Except ε ρ :=
  match f with
  | .ok r => (prev, .ok r)
  | .error e => (some toSet, .error e)

/-! ## SyncWatchedMeta / SyncContext (sync.rs)

`SyncContext` holds the shared atomic word, an array of `FLAG_COUNT`
internal `WatchedMeta` cells and the lazily advancing `next_index`
counter.  `SyncWatchedMeta::watched` is modelled step by step from
sync.rs lines 137-150; the Rust expressions are kept literally:
`!self.index.get()` is bitwise NOT on `usize`, and
`index + 1 % FLAG_COUNT` parses as `index + (1 % FLAG_COUNT)`.
Out-of-range array indexing and an overflowing shift are the panics a
debug build raises at those operations. -/

/-- Bitwise NOT on a `usize` value (`!x` in Rust, for `x < 2^64`). -/
def usizeNot (x : Nat) : Nat := (USIZE - 1) - x

/-- `usize::MAX`. -/
def USIZE_MAX : Nat := USIZE - 1

/-- The mutable state of a `SyncWatchedMeta` (sync.rs lines 114-126):
the stored mask, whether the flag-pole already holds a weak handle, and
the claimed bit index (`usize::MAX` when still unallocated, per
`Default`). -/
structure SyncMetaM where
  mask : Nat
  flagPoleSet : Bool
  index : Nat
deriving DecidableEq, Repr

/-- `SyncWatchedMeta::default()` / `new()` (sync.rs lines 119-126). -/
def SyncMetaM.fresh : SyncMetaM := ⟨0, false, USIZE_MAX⟩

/-- The scheduler-side `SyncContext` state relevant to allocation
(sync.rs lines 18-22): the `next_index` counter.  The 64 internal
`WatchedMeta` cells are modelled by the subscription they would record:
`watchedAt` reports which cell index the running watch is subscribed
to. -/
structure SyncCtxM where
  nextIndex : Nat
deriving DecidableEq, Repr

/-- Runtime panics a debug build raises inside
`SyncWatchedMeta::watched`. -/
inductive SyncPanic where
  /-- `sctx.watched[i]` with `i >= FLAG_COUNT`. -/
  | indexOutOfBounds (i : Nat)
  /-- `1 << index` with `index >=` the bit width. -/
  | shiftOverflow (sh : Nat)
deriving DecidableEq, Repr

/-- `SyncWatchedMeta::watched(ctx)` (sync.rs lines 137-150), for a call
made while the scheduler (hence its `SyncContext`) is alive: if
`!self.index.get() == usize::MAX` — bitwise NOT, so the test holds
exactly when the stored index is `0`, not when it is `usize::MAX` — take
`index = next_index`, set `next_index = index + (1 % FLAG_COUNT)`
(precedence: `1 % FLAG_COUNT = 1`, so no wrap), store the mask
`1 << index` and the weak flag handle, and record the index; then
subscribe the running watch to the internal cell `watched[index]`.
Returns the updated meta, context and the subscribed cell index, or the
panic a debug build raises. -/
def syncWatched (m : SyncMetaM) (sctx : SyncCtxM) :
    Except SyncPanic (SyncMetaM × SyncCtxM × Nat) := do
  let (m, sctx) ←
    if usizeNot m.index = USIZE_MAX then do
      let index := sctx.nextIndex
      let sctx' : SyncCtxM := ⟨(index + 1 % FLAG_COUNT) % USIZE⟩
      if 64 ≤ index then
        throw (.shiftOverflow index)
      else
        pure ({ mask := 1 <<< index, flagPoleSet := true, index := index },
          sctx')
    else
      pure (m, sctx)
  if FLAG_COUNT ≤ m.index then
    throw (.indexOutOfBounds m.index)
  else
    return (m, sctx, m.index)

/-- A sample subscriber set used by concrete witnesses: one head node
holding refs to watches `2` and `1`. -/
def sampleSet : WatchSetM :=
  ⟨some ⟨[some ⟨2, 0⟩, none, none, some ⟨1, 0⟩], [], 1⟩⟩

/-! ## Scheduler lemmas -/

theorem drainFrame_nil (body : Nat → Nat → List TW) (σ : Cycles) :
    drainFrame body [] σ = (σ, []) := rfl

theorem iterDrain_nil (body : Nat → Nat → List TW) (k : Nat) (σ : Cycles) :
    iterDrain body k (σ, []) = (σ, []) := by
  induction k with
  | zero => rfl
  | succ k ih => simpa [iterDrain, drainFrame_nil] using ih

theorem stepCycles_ne (σ : Cycles) (t : TW) (W : Nat) (h : t.watch ≠ W) :
    stepCycles σ t W = σ W := by
  unfold stepCycles
  by_cases hc : t.cycle = σ t.watch
  · simp [hc, Ne.symm h]
  · simp [hc]

theorem execCount_eq_zero (F : List TW) (σ : Cycles) (W : Nat)
    (h : ∀ t ∈ F, t.watch = W → t.cycle ≠ σ W) : execCount F σ W = 0 := by
  induction F generalizing σ with
  | nil => rfl
  | cons t ts ih =>
    by_cases hw : t.watch = W
    · have hne : t.cycle ≠ σ W := h t (by simp) hw
      have hstale : ¬t.cycle = σ t.watch := by rw [hw]; exact hne
      have hstep : stepCycles σ t = σ := by simp [stepCycles, hstale]
      have hcond : ¬(t.cycle = σ t.watch ∧ t.watch = W) :=
        fun hc => hstale hc.1
      simp only [execCount, hstep, if_neg hcond, Nat.zero_add]
      exact ih σ fun t' ht' => h t' (by simp [ht'])
    · have hstep : stepCycles σ t W = σ W := stepCycles_ne σ t W hw
      have hcond : ¬(t.cycle = σ t.watch ∧ t.watch = W) :=
        fun hc => hw hc.2
      simp only [execCount, if_neg hcond, Nat.zero_add]
      refine ih (stepCycles σ t) fun t' ht' hW => ?_
      rw [hstep]
      exact h t' (by simp [ht']) hW

/-- Claim C1.  During one drain iteration of `WatchContext::update`, at
most one queued `TriggeredWatch` referring to a given watch `W`
executes: execution requires the captured generation to equal `W`'s
current generation and then increments it, so every other reference to
`W` captured no later than that execution is stale when drained.
Hypotheses: every queued reference to `W` was captured at or before the
current generation, and the generation counter does not wrap during the
increment. -/
theorem watch_at_most_once_per_frame (F : List TW) (σ : Cycles) (W : Nat)
    (hcap : ∀ t ∈ F, t.watch = W → t.cycle ≤ σ W)
    (hnw : σ W + 1 < USIZE) :
    execCount F σ W ≤ 1 := by
  induction F generalizing σ with
  | nil => exact Nat.zero_le 1
  | cons t ts ih =>
    by_cases hexec : t.cycle = σ t.watch ∧ t.watch = W
    · obtain ⟨hfresh, hw⟩ := hexec
      have hstep : stepCycles σ t W = σ W + 1 := by
        simp [stepCycles, hfresh, hw, Nat.mod_eq_of_lt hnw]
      have hzero : execCount ts (stepCycles σ t) W = 0 := by
        refine execCount_eq_zero _ _ _ fun t' ht' hW => ?_
        rw [hstep]
        exact Nat.ne_of_lt
          (Nat.lt_succ_of_le (hcap t' (by simp [ht']) hW))
      have hcond : t.cycle = σ t.watch ∧ t.watch = W := ⟨hfresh, hw⟩
      simp [execCount, hzero, if_pos hcond]
    · have hstepW : stepCycles σ t W = σ W := by
        by_cases hw : t.watch = W
        · have : ¬t.cycle = σ t.watch := fun hc => hexec ⟨hc, hw⟩
          simp [stepCycles, this]
        · exact stepCycles_ne σ t W hw
      simp only [execCount, if_neg hexec, Nat.zero_add]
      refine ih (stepCycles σ t) ?_ (by rw [hstepW]; exact hnw)
      intro t' ht' hW
      rw [hstepW]
      exact hcap t' (by simp [ht']) hW

/-- Witness instantiating `watch_at_most_once_per_frame` on a concrete
frame holding two queued references to the same watch. -/
theorem watch_at_most_once_per_frame_witness :
    ((∀ t ∈ [TW.mk 1 0, TW.mk 1 0], t.watch = 1 → t.cycle ≤ 0)
      ∧ 0 + 1 < USIZE)
    ∧ execCount [TW.mk 1 0, TW.mk 1 0] (fun _ => 0) 1 ≤ 1 :=
  ⟨⟨by decide, by norm_num [USIZE]⟩,
    watch_at_most_once_per_frame [TW.mk 1 0, TW.mk 1 0] (fun _ => 0) 1
      (by decide) (by norm_num [USIZE])⟩

theorem updateSome_nil (body : Nat → Nat → List TW) (debug : Bool)
    (limit : Nat) (σ : Cycles) (tracked : List (List TW)) :
    updateSome body debug limit [] σ tracked = .ok (σ, [], [], 0) := by
  rw [updateSome]
  simp

theorem updateSome_zero (body : Nat → Nat → List TW) (debug : Bool)
    (cur : List TW) (σ : Cycles) (tracked : List (List TW))
    (hc : cur ≠ []) :
    updateSome body debug 0 cur σ tracked
      = .error ⟨panicMsgStr,
          if debug then
            some ⟨if debug && decide ((0 : Nat) < 5) then tracked ++ [cur]
                  else tracked, cur⟩
          else none⟩ := by
  rw [updateSome]
  simp [hc]

theorem updateSome_succ (body : Nat → Nat → List TW) (debug : Bool)
    (n : Nat) (cur : List TW) (σ : Cycles) (tracked : List (List TW))
    (hc : cur ≠ []) :
    updateSome body debug (n + 1) cur σ tracked
      = Except.map (fun x => (x.1, x.2.1, x.2.2.1, x.2.2.2 + 1))
          (updateSome body debug n (drainFrame body cur σ).2
            (drainFrame body cur σ).1
            (if debug && decide (n + 1 < 5) then tracked ++ [cur]
             else tracked)) := by
  conv_lhs => rw [updateSome]
  simp [hc]

theorem isPanic_bump (r : Except PanicM (Cycles × List TW × List TW × Nat)) :
    isPanic (Except.map (fun x => (x.1, x.2.1, x.2.2.1, x.2.2.2 + 1)) r)
      = isPanic r := by
  cases r <;> rfl

theorem panicBase_bump
    (r : Except PanicM (Cycles × List TW × List TW × Nat)) :
    panicBase (Except.map (fun x => (x.1, x.2.1, x.2.2.1, x.2.2.2 + 1)) r)
      = panicBase r := by
  cases r <;> rfl

theorem panicHasDiag_bump
    (r : Except PanicM (Cycles × List TW × List TW × Nat)) :
    panicHasDiag
        (Except.map (fun x => (x.1, x.2.1, x.2.2.1, x.2.2.2 + 1)) r)
      = panicHasDiag r := by
  cases r <;> rfl

theorem nextOf_bump (r : Except PanicM (Cycles × List TW × List TW × Nat)) :
    nextOf (Except.map (fun x => (x.1, x.2.1, x.2.2.1, x.2.2.2 + 1)) r)
      = nextOf r := by
  cases r <;> rfl

theorem otherOf_bump
    (r : Except PanicM (Cycles × List TW × List TW × Nat)) :
    otherOf (Except.map (fun x => (x.1, x.2.1, x.2.2.1, x.2.2.2 + 1)) r)
      = otherOf r := by
  cases r <;> rfl

theorem itersOf_bump
    (r : Except PanicM (Cycles × List TW × List TW × Nat)) :
    itersOf (Except.map (fun x => (x.1, x.2.1, x.2.2.1, x.2.2.2 + 1)) r)
      ≤ itersOf r + 1 := by
  cases r with
  | error e => exact Nat.zero_le _
  | ok x => exact Nat.le_refl _

theorem updateSome_spec (body : Nat → Nat → List TW) (debug : Bool) :
    ∀ (n : Nat) (cur : List TW) (σ : Cycles) (tracked : List (List TW)),
      isPanic (updateSome body debug n cur σ tracked)
          = !(iterDrain body n (σ, cur)).2.isEmpty
      ∧ itersOf (updateSome body debug n cur σ tracked) ≤ n
      ∧ panicBase (updateSome body debug n cur σ tracked)
          = (if (iterDrain body n (σ, cur)).2.isEmpty then none
             else some panicMsgStr)
      ∧ panicHasDiag (updateSome body debug n cur σ tracked)
          = ((!(iterDrain body n (σ, cur)).2.isEmpty) && debug)
      ∧ (nextOf (updateSome body debug n cur σ tracked)).getD [] = []
      ∧ (otherOf (updateSome body debug n cur σ tracked)).getD []
          = [] := by
  intro n
  induction n with
  | zero =>
    intro cur σ tracked
    by_cases hc : cur = []
    · subst hc
      simp [updateSome_nil, iterDrain, isPanic, itersOf, panicBase,
        panicHasDiag, nextOf, otherOf]
    · rw [updateSome_zero body debug cur σ tracked hc]
      have hne : cur.isEmpty = false := by
        cases cur with
        | nil => exact absurd rfl hc
        | cons a l => rfl
      cases debug <;>
        simp [iterDrain, isPanic, itersOf, panicBase, panicHasDiag,
          nextOf, otherOf, hne]
  | succ n ih =>
    intro cur σ tracked
    by_cases hc : cur = []
    · subst hc
      simp [updateSome_nil, iterDrain_nil, isPanic, itersOf, panicBase,
        panicHasDiag, nextOf, otherOf]
    · rw [updateSome_succ body debug n cur σ tracked hc]
      have hiter : iterDrain body (n + 1) (σ, cur)
          = iterDrain body n (drainFrame body cur σ) := rfl
      rw [hiter]
      obtain ⟨h1, h2, h3, h4, h5, h6⟩ :=
        ih (drainFrame body cur σ).2 (drainFrame body cur σ).1
          (if debug && decide (n + 1 < 5) then tracked ++ [cur]
           else tracked)
      have hpair : (((drainFrame body cur σ).1,
          (drainFrame body cur σ).2) : Cycles × List TW)
          = drainFrame body cur σ := rfl
      rw [hpair] at h1 h3 h4
      refine ⟨?_, ?_, ?_, ?_, ?_, ?_⟩
      · rw [isPanic_bump]; exact h1
      · exact (itersOf_bump _).trans (Nat.succ_le_succ h2)
      · rw [panicBase_bump]; exact h3
      · rw [panicHasDiag_bump]; exact h4
      · rw [nextOf_bump]; exact h5
      · rw [otherOf_bump]; exact h6

theorem updateNoneE_spec (body : Nat → Nat → List TW) :
    ∀ (fuel : Nat) (cur : List TW) (σ : Cycles),
      isPanicOpt (updateNoneE body fuel cur σ) = false
      ∧ (match updateNoneE body fuel cur σ with
         | some (.ok (_, nf, of)) => nf = [] ∧ of = []
         | _ => True) := by
  intro fuel
  induction fuel with
  | zero =>
    intro cur σ
    by_cases hc : cur = [] <;>
      simp [updateNoneE, hc, isPanicOpt]
  | succ f ih =>
    intro cur σ
    by_cases hc : cur = []
    · simp [updateNoneE, hc, isPanicOpt]
    · rw [updateNoneE]
      simp only [if_neg hc]
      exact ih _ _

/-- Claim C2.  If `WatchContext::update` returns normally (whether the
frame limit is `Some` or `None`), the system is at fixpoint: the pending
`next_frame` is empty at return (and so is the stashed `other_frame`). -/
theorem update_fixpoint_on_return (body : Nat → Nat → List TW)
    (debug : Bool) (n : Nat) (cur : List TW) (σ : Cycles)
    (tracked : List (List TW)) (fuel : Nat) :
    (nextOf (updateSome body debug n cur σ tracked)).getD [] = []
    ∧ (otherOf (updateSome body debug n cur σ tracked)).getD [] = []
    ∧ (match updateNoneE body fuel cur σ with
       | some (.ok (_, nf, of)) => nf = [] ∧ of = []
       | _ => True) :=
  ⟨(updateSome_spec body debug n cur σ tracked).2.2.2.2.1,
    (updateSome_spec body debug n cur σ tracked).2.2.2.2.2,
    (updateNoneE_spec body fuel cur σ).2⟩

/-- Claim C4.  With frame limit `Some n`, `update` performs at most `n`
drain iterations; it panics exactly when the frame reached after `n`
drains is still non-empty, the panic carries the fixed limit message,
and it carries the cycle diagnostic's data exactly in diagnostic builds;
with frame limit `None` the loop never panics from limit
enforcement. -/
theorem frame_limit_enforcement (body : Nat → Nat → List TW)
    (debug : Bool) (n : Nat) (cur : List TW) (σ : Cycles) (fuel : Nat) :
    itersOf (updateSome body debug n cur σ []) ≤ n
    ∧ isPanic (updateSome body debug n cur σ [])
        = !(iterDrain body n (σ, cur)).2.isEmpty
    ∧ panicBase (updateSome body debug n cur σ [])
        = (if (iterDrain body n (σ, cur)).2.isEmpty then none
           else some panicMsgStr)
    ∧ panicHasDiag (updateSome body debug n cur σ [])
        = ((!(iterDrain body n (σ, cur)).2.isEmpty) && debug)
    ∧ isPanicOpt (updateNoneE body fuel cur σ) = false :=
  ⟨(updateSome_spec body debug n cur σ []).2.1,
    (updateSome_spec body debug n cur σ []).1,
    (updateSome_spec body debug n cur σ []).2.2.1,
    (updateSome_spec body debug n cur σ []).2.2.2.1,
    (updateNoneE_spec body fuel cur σ).1⟩

/-! ## WatchSet / WatchedMeta theorems -/

theorem metaTrigger_snd (m : WatchedMetaM) (current : Nat)
    (pend : List TW) :
    (m.trigger current true pend).2
      = pend ++ ((setEntries m.watchers).filter
          fun r => !(r.ptr == current)).map
            fun r => TW.mk r.ptr r.cycle := by
  obtain ⟨⟨l⟩⟩ := m
  cases l <;>
    simp [WatchedMetaM.trigger, triggerWithCurrent, triggerFiltered,
      setEntries]

theorem metaTrigger_fst (m : WatchedMetaM) (current : Nat) (alive : Bool)
    (pend : List TW) :
    (m.trigger current alive pend).1.watchers = WatchSetM.empty := by
  obtain ⟨⟨l⟩⟩ := m
  cases l <;> cases alive <;> rfl

/-- Claim C10.  `WatchSet::trigger_with_current` and
`WatchSet::trigger_external` leave the set empty unconditionally: the
chain is taken out before the weak pending-frame handle is consulted, so
the set is emptied whether or not refs were filtered out or the handle
was dead. -/
theorem trigger_leaves_set_empty (s : WatchSetM) (current : Nat)
    (alive : Bool) (pend : List TW) :
    (triggerWithCurrent s current alive pend).1 = WatchSetM.empty
    ∧ (triggerExternal s alive pend).1 = WatchSetM.empty := by
  obtain ⟨l⟩ := s
  cases l <;> cases alive <;> exact ⟨rfl, rfl⟩

/-- Claim C3.  When the currently running watch `current` triggers a
cell from inside its own execution (`WatchedMeta::trigger`, which calls
`trigger_with_current`), every subscriber whose watch differs from
`current` is pushed onto the pending frame, in traversal order, and
`current` itself is never enqueued by that mutation. -/
theorem self_notification_suppression (m : WatchedMetaM) (current : Nat)
    (pend : List TW) :
    (m.trigger current true pend).2
      = pend ++ ((setEntries m.watchers).filter
          fun r => !(r.ptr == current)).map
            (fun r => TW.mk r.ptr r.cycle)
    ∧ (∀ t ∈ (m.trigger current true pend).2,
        t ∈ pend ∨ t.watch ≠ current)
    ∧ (∀ r ∈ setEntries m.watchers, r.ptr ≠ current →
        TW.mk r.ptr r.cycle ∈ (m.trigger current true pend).2) := by
  have heq := metaTrigger_snd m current pend
  refine ⟨heq, ?_, ?_⟩
  · intro t ht
    rw [heq] at ht
    rcases List.mem_append.mp ht with h | h
    · exact Or.inl h
    · right
      obtain ⟨r, hr, rfl⟩ := List.mem_map.mp h
      have hne := (List.mem_filter.mp hr).2
      simpa using hne
  · intro r hr hne
    rw [heq]
    refine List.mem_append.mpr (Or.inr ?_)
    exact List.mem_map.mpr
      ⟨r, List.mem_filter.mpr ⟨hr, by simp [hne]⟩, rfl⟩

/-- Witness instantiating `self_notification_suppression`: watch `1`
triggers a cell it is subscribed to together with watch `2`; only
watch `2` is enqueued. -/
theorem self_notification_suppression_witness :
    ((⟨2, 0⟩ : RefM) ∈ setEntries sampleSet ∧ (2 : Nat) ≠ 1)
    ∧ TW.mk 2 0 ∈ ((WatchedMetaM.mk sampleSet).trigger 1 true []).2 :=
  ⟨⟨by decide, by decide⟩,
    (self_notification_suppression ⟨sampleSet⟩ 1 []).2.2 ⟨2, 0⟩
      (by decide) (by decide)⟩

/-- Claim C8.  `set_if_neq` on both `WatchedCore` and `WatchedCellCore`:
afterwards the stored value equals the argument (so an immediately
following `get` returns it), and subscribers are notified exactly when
the old value differed by `PartialEq` — on equality nothing is touched
at all, on inequality the non-current subscribers are enqueued and the
subscriber set is drained. -/
theorem set_if_neq_semantics (α : Type) [DecidableEq α]
    (c : WatchedCoreM α) (cc : WatchedCellCoreM α) (v : α)
    (current : Nat) (pend : List TW) :
    ((c.setIfNeq v current true pend).1.value = v
      ∧ (c.value = v → c.setIfNeq v current true pend = (c, pend))
      ∧ (c.value ≠ v →
          (c.setIfNeq v current true pend).2
            = pend ++ ((setEntries c.meta.watchers).filter
                fun r => !(r.ptr == current)).map
                  (fun r => TW.mk r.ptr r.cycle)
          ∧ (c.setIfNeq v current true pend).1.meta.watchers
              = WatchSetM.empty))
    ∧ ((cc.setIfNeq v current true pend).1.value = v
      ∧ (cc.value = v → cc.setIfNeq v current true pend = (cc, pend))
      ∧ (cc.value ≠ v →
          (cc.setIfNeq v current true pend).2
            = pend ++ ((setEntries cc.meta.watchers).filter
                fun r => !(r.ptr == current)).map
                  (fun r => TW.mk r.ptr r.cycle)
          ∧ (cc.setIfNeq v current true pend).1.meta.watchers
              = WatchSetM.empty)) := by
  constructor
  · by_cases h : c.value = v
    · refine ⟨?_, fun _ => by simp [WatchedCoreM.setIfNeq, h], fun hne =>
        absurd h hne⟩
      simp [WatchedCoreM.setIfNeq, h]
    · refine ⟨?_, fun he => absurd he h, fun _ => ⟨?_, ?_⟩⟩
      · simp [WatchedCoreM.setIfNeq, h]
      · simp only [WatchedCoreM.setIfNeq, if_pos h]
        exact metaTrigger_snd c.meta current pend
      · simp only [WatchedCoreM.setIfNeq, if_pos h]
        exact metaTrigger_fst c.meta current true pend
  · by_cases h : cc.value = v
    · refine ⟨?_, fun _ => by simp [WatchedCellCoreM.setIfNeq, h],
        fun hne => absurd h hne⟩
      simp [WatchedCellCoreM.setIfNeq, h]
    · refine ⟨?_, fun he => absurd he h, fun _ => ⟨?_, ?_⟩⟩
      · simp [WatchedCellCoreM.setIfNeq, WatchedCellCoreM.set, h]
      · simp only [WatchedCellCoreM.setIfNeq, if_pos h,
          WatchedCellCoreM.set]
        exact metaTrigger_snd cc.meta current pend
      · simp only [WatchedCellCoreM.setIfNeq, if_pos h,
          WatchedCellCoreM.set]
        exact metaTrigger_fst cc.meta current true pend

/-- Witness instantiating `set_if_neq_semantics` at a value that does
differ, discharging the inequality hypotheses. -/
theorem set_if_neq_semantics_witness :
    ((0 : Nat) ≠ 1)
    ∧ ((WatchedCoreM.mk ⟨sampleSet⟩ (0 : Nat)).setIfNeq 1 5 true []).2
        = [] ++ ((setEntries sampleSet).filter
            fun r => !(r.ptr == 5)).map (fun r => TW.mk r.ptr r.cycle)
    ∧ ((WatchedCoreM.mk ⟨sampleSet⟩ (0 : Nat)).setIfNeq 1 5
        true []).1.meta.watchers = WatchSetM.empty :=
  ⟨by decide,
    (set_if_neq_semantics Nat (WatchedCoreM.mk ⟨sampleSet⟩ 0)
      (WatchedCellCoreM.mk ⟨sampleSet⟩ 0) 1 5 []).1.2.2 (by decide)⟩

/-! ## Code-divergence evaluations -/

/-- Claim C5 (code divergence).  `WatchArg::use_as_current` restores the
thread-local slot only on normal return: when the user closure panics,
the unwinding path skips `cell.set(prev)` and the slot keeps the
freshly installed argument instead of the prior contents.  Evaluated at
a previously empty slot: after the panic propagates the slot holds
`some 7`, not the prior `none`; the normal-return path does restore. -/
theorem use_as_current_unwind_divergence :
    useAsCurrent (none : Option Nat) 7
        (Except.error () : Except Unit Nat)
      = (some 7, Except.error ())
    ∧ some 7 ≠ (none : Option Nat)
    ∧ useAsCurrent (none : Option Nat) 7
        (Except.ok 0 : Except Unit Nat) = (none, Except.ok 0) :=
  ⟨rfl, by decide, rfl⟩

/-- Claim C6 (code divergence).  On a freshly constructed
`SyncWatchedMeta` (`index == usize::MAX`), the first `watched` call does
**not** allocate a bit: the guard `!self.index.get() == usize::MAX` is a
bitwise NOT, false for `usize::MAX`, so the allocation branch is skipped
and `sctx.watched[usize::MAX]` panics with an out-of-bounds index. -/
theorem sync_watched_first_call_panics :
    SyncMetaM.fresh.index = USIZE_MAX
    ∧ syncWatched SyncMetaM.fresh ⟨0⟩
        = Except.error (SyncPanic.indexOutOfBounds USIZE_MAX) :=
  ⟨rfl, rfl⟩

/-- Claim C7 (code divergence).  The allocation step stores
`next_index + (1 % FLAG_COUNT) = next_index + 1` — precedence defeats
the intended modulo — so consuming index `W - 1 = 63` leaves the counter
at `64`, outside `[0, W)`; a subsequent allocation from `64` panics on
the `1 << 64` shift instead of wrapping to bit 0. -/
theorem sync_next_index_no_wrap :
    syncWatched ⟨0, false, 0⟩ ⟨FLAG_COUNT - 1⟩
      = Except.ok (⟨2 ^ 63, true, 63⟩, ⟨64⟩, 63)
    ∧ ¬64 < FLAG_COUNT
    ∧ syncWatched ⟨0, false, 0⟩ ⟨64⟩
        = Except.error (SyncPanic.shiftOverflow 64) :=
  ⟨rfl, by decide, rfl⟩

/-! ## WatchSet::add insertion-pass lemmas -/

theorem coe_cons_add {α : Type} (a : α) (l : List α) (X : Multiset α) :
    ((a :: l : List α) : Multiset α) + X = a ::ₘ ((l : Multiset α) + X) := by
  rw [← Multiset.cons_coe, Multiset.cons_add]

theorem cons_add_singleton_comm {α : Type} (a b : α) (X : Multiset α) :
    a ::ₘ (X + {b}) = b ::ₘ (X + {a}) := by
  have h1 : X + ({b} : Multiset α) = b ::ₘ X := by
    rw [← Multiset.cons_zero b, Multiset.add_cons, add_zero]
  have h2 : X + ({a} : Multiset α) = a ::ₘ X := by
    rw [← Multiset.cons_zero a, Multiset.add_cons, add_zero]
  rw [h1, h2, Multiset.cons_swap]

theorem nodeEntries_cons_none (l : List (Option RefM)) :
    nodeEntries (none :: l) = nodeEntries l := by
  simp [nodeEntries]

theorem nodeEntries_cons_some (b : RefM) (l : List (Option RefM)) :
    nodeEntries (some b :: l) = b :: nodeEntries l := by
  simp [nodeEntries]

theorem sortSlot_none_fst (r : RefM) (c : Nat) :
    (sortSlot none r c).1 = none := by
  unfold sortSlot
  rcases Nat.eq_zero_or_pos r.ptr with h | h <;> simp [slotKey, h]

theorem addPassRev_length (c : Nat) :
    ∀ (l : List (Option RefM)) (r : RefM),
      (addPassRev l r c).1.length = l.length := by
  intro l
  induction l with
  | nil => intro r; rfl
  | cons s rest ih =>
    intro r
    rcases hss : sortSlot s r c with ⟨s', o⟩
    cases o with
    | none => simp [addPassRev, hss]
    | some r' => simp [addPassRev, hss, ih r']

theorem addPassRev_none_preserved (c : Nat) :
    ∀ (l : List (Option RefM)) (r : RefM) (i : Nat),
      l.get? i = some none → (addPassRev l r c).1.get? i = some none := by
  intro l
  induction l with
  | nil => intro r i h; exact h
  | cons s rest ih =>
    intro r i h
    cases i with
    | zero =>
      have hs : s = none := by simpa using h
      subst hs
      rcases hss : sortSlot none r c with ⟨s', o⟩
      have hs' : s' = none := by
        have := sortSlot_none_fst r c
        rw [hss] at this
        exact this
      subst hs'
      cases o with
      | none => simp [addPassRev, hss]
      | some r' => simp [addPassRev, hss]
    | succ i =>
      have hrest : rest.get? i = some none := by simpa using h
      rcases hss : sortSlot s r c with ⟨s', o⟩
      cases o with
      | none => simpa [addPassRev, hss] using hrest
      | some r' => simpa [addPassRev, hss] using ih r' i hrest

theorem addPassRev_entries (c : Nat) :
    ∀ (l : List (Option RefM)) (r : RefM), 0 < r.ptr →
      (∀ w ∈ nodeEntries l, 0 < w.ptr) →
      (match (addPassRev l r c).2 with
       | some w =>
           (nodeEntries (addPassRev l r c).1 : Multiset RefM) + {w}
             = (nodeEntries l : Multiset RefM) + {r}
       | none =>
           ∃ p,
             ((nodeEntries (addPassRev l r c).1).map RefM.ptr :
                 Multiset Nat) + {p}
               = ((nodeEntries l).map RefM.ptr : Multiset Nat) + {r.ptr}
             ∧ ∃ w ∈ nodeEntries (addPassRev l r c).1,
                 w.ptr = p ∧ w.cycle = c) := by
  intro l
  induction l with
  | nil => intro r _ _; rfl
  | cons s rest ih =>
    intro r hr hpos
    rcases s with _ | b
    · -- empty slot: never filled, ref carried on unchanged
      have hss : sortSlot none r c = (none, some r) := by
        simp [sortSlot, slotKey, hr]
      have hent : ∀ w ∈ nodeEntries rest, 0 < w.ptr := fun w hw =>
        hpos w (by rw [nodeEntries_cons_none]; exact hw)
      have key := ih r hr hent
      simp only [addPassRev, hss]
      rcases ht : (addPassRev rest r c).2 with _ | w <;>
        simp only [ht] at key ⊢
      · obtain ⟨p, hperm, w, hw, hwp, hwc⟩ := key
        refine ⟨p, ?_, w, ?_, hwp, hwc⟩
        · rw [nodeEntries_cons_none, nodeEntries_cons_none]
          exact hperm
        · rw [nodeEntries_cons_none]
          exact hw
      · rw [nodeEntries_cons_none, nodeEntries_cons_none]
        exact key
    · rcases Nat.lt_trichotomy b.ptr r.ptr with hlt | heq | hgt
      · -- occupied slot with a smaller address: slot kept, ref carried
        have hss : sortSlot (some b) r c = (some b, some r) := by
          simp [sortSlot, slotKey, hlt, Nat.lt_asymm hlt]
        have hent : ∀ w ∈ nodeEntries rest, 0 < w.ptr := fun w hw =>
          hpos w (by rw [nodeEntries_cons_some]; exact List.mem_cons_of_mem b hw)
        have key := ih r hr hent
        simp only [addPassRev, hss]
        rcases ht : (addPassRev rest r c).2 with _ | w <;>
          simp only [ht] at key ⊢
        · obtain ⟨p, hperm, w, hw, hwp, hwc⟩ := key
          refine ⟨p, ?_, w, ?_, hwp, hwc⟩
          · rw [nodeEntries_cons_some, nodeEntries_cons_some,
              List.map_cons, List.map_cons, coe_cons_add, coe_cons_add,
              hperm]
          · rw [nodeEntries_cons_some]
            exact List.mem_cons_of_mem b hw
        · rw [nodeEntries_cons_some, nodeEntries_cons_some,
            coe_cons_add, coe_cons_add, key]
      · -- occupied slot for the same watch: merge, newest generation kept
        have hss : sortSlot (some b) r c
            = (some { b with cycle := c }, none) := by
          simp [sortSlot, slotKey, heq]
        simp only [addPassRev, hss]
        refine ⟨r.ptr, ?_, ?_⟩
        · rw [nodeEntries_cons_some, nodeEntries_cons_some,
            List.map_cons, List.map_cons]
        · refine ⟨{ b with cycle := c }, ?_, by simpa using heq, rfl⟩
          rw [nodeEntries_cons_some]
          exact List.mem_cons_self _ _
      · -- occupied slot with a greater address: swap, occupant carried
        have hbpos : 0 < b.ptr :=
          hpos b (by rw [nodeEntries_cons_some]; exact List.mem_cons_self _ _)
        have hss : sortSlot (some b) r c = (some r, some b) := by
          simp [sortSlot, slotKey, hgt]
        have hent : ∀ w ∈ nodeEntries rest, 0 < w.ptr := fun w hw =>
          hpos w (by rw [nodeEntries_cons_some]; exact List.mem_cons_of_mem b hw)
        have key := ih b hbpos hent
        simp only [addPassRev, hss]
        rcases ht : (addPassRev rest b c).2 with _ | w <;>
          simp only [ht] at key ⊢
        · obtain ⟨p, hperm, w, hw, hwp, hwc⟩ := key
          refine ⟨p, ?_, w, ?_, hwp, hwc⟩
          · rw [nodeEntries_cons_some, nodeEntries_cons_some,
              List.map_cons, List.map_cons, coe_cons_add, coe_cons_add,
              hperm]
            exact cons_add_singleton_comm _ _ _
          · rw [nodeEntries_cons_some]
            exact List.mem_cons_of_mem r hw
        · rw [nodeEntries_cons_some, nodeEntries_cons_some,
            coe_cons_add, coe_cons_add, key]
          exact cons_add_singleton_comm _ _ _

/-! ## WatchSet::squash lemmas -/

theorem sortByPtr_sorted (l : List RefM) :
    (sortByPtr l).Sorted fun a b => a.ptr ≤ b.ptr :=
  List.sorted_insertionSort _ l

theorem sortByPtr_perm (l : List RefM) : (sortByPtr l).Perm l :=
  List.perm_insertionSort _ l

theorem chunks4_flatten :
    ∀ l : List RefM, 4 ∣ l.length → (chunks4 l).flatten = l := by
  intro l
  induction l using chunks4.induct with
  | case1 a b c d rest ih =>
    intro h
    have h4 : 4 ∣ rest.length := by
      simp only [List.length_cons] at h
      omega
    rw [chunks4]
    simp [ih h4]
  | case2 l hshape =>
    intro h
    have hlen : l.length = 0 := by
      match l, hshape with
      | [], _ => rfl
      | [a], _ =>
        simp only [List.length_cons, List.length_nil] at h ⊢
        omega
      | [a, b], _ =>
        simp only [List.length_cons, List.length_nil] at h ⊢
        omega
      | [a, b, c], _ =>
        simp only [List.length_cons, List.length_nil] at h ⊢
        omega
      | a :: b :: c :: d :: rest, hs =>
        exact absurd rfl fun hh => hs a b c d rest hh
    have hl : l = [] := List.eq_nil_of_length_eq_zero hlen
    subst hl
    rfl

theorem chunks4_length :
    ∀ l : List RefM, 4 ∣ l.length → (chunks4 l).length = l.length / 4 := by
  intro l
  induction l using chunks4.induct with
  | case1 a b c d rest ih =>
    intro h
    have h4 : 4 ∣ rest.length := by
      simp only [List.length_cons] at h
      omega
    rw [chunks4]
    simp only [List.length_cons, ih h4]
    omega
  | case2 l hshape =>
    intro h
    have hlen : l.length = 0 := by
      match l, hshape with
      | [], _ => rfl
      | [a], _ =>
        simp only [List.length_cons, List.length_nil] at h ⊢
        omega
      | [a, b], _ =>
        simp only [List.length_cons, List.length_nil] at h ⊢
        omega
      | [a, b, c], _ =>
        simp only [List.length_cons, List.length_nil] at h ⊢
        omega
      | a :: b :: c :: d :: rest, hs =>
        exact absurd rfl fun hh => hs a b c d rest hh
    have hl : l = [] := List.eq_nil_of_length_eq_zero hlen
    subst hl
    rfl

theorem dedupAdj_subset :
    ∀ (l : List RefM) (y : RefM), y ∈ dedupAdjByPtr l → y ∈ l := by
  intro l
  induction l using dedupAdjByPtr.induct with
  | case1 => intro y hy; exact absurd hy (by simp [dedupAdjByPtr])
  | case2 a rest ih =>
    intro y hy
    rw [dedupAdjByPtr] at hy
    rcases List.mem_cons.mp hy with h | h
    · exact h ▸ List.mem_cons_self _ _
    · exact List.mem_cons_of_mem a
        ((List.dropWhile_sublist _).subset (ih y h))

theorem mem_dropWhile_ptr_lt (a : RefM) :
    ∀ rest : List RefM,
      rest.Sorted (fun x y => x.ptr ≤ y.ptr) →
      (∀ x ∈ rest, a.ptr ≤ x.ptr) →
      ∀ y ∈ rest.dropWhile (fun b => b.ptr = a.ptr), a.ptr < y.ptr := by
  intro rest
  induction rest with
  | nil => intro _ _ y hy; exact absurd hy (by simp)
  | cons x xs ih =>
    intro hs hle y hy
    by_cases hp : x.ptr = a.ptr
    · rw [List.dropWhile_cons_of_pos (by simp [hp])] at hy
      exact ih (List.sorted_cons.mp hs).2
        (fun z hz => hle z (List.mem_cons_of_mem _ hz)) y hy
    · rw [List.dropWhile_cons_of_neg (by simp [hp])] at hy
      have hax : a.ptr < x.ptr :=
        Nat.lt_of_le_of_ne (hle x (List.mem_cons_self _ _))
          fun he => hp he.symm
      rcases List.mem_cons.mp hy with h | h
      · exact h ▸ hax
      · exact Nat.lt_of_lt_of_le hax ((List.sorted_cons.mp hs).1 y h)

theorem dedupAdj_strict :
    ∀ l : List RefM, l.Sorted (fun x y => x.ptr ≤ y.ptr) →
      (dedupAdjByPtr l).Sorted fun x y => x.ptr < y.ptr := by
  intro l
  induction l using dedupAdjByPtr.induct with
  | case1 => intro _; simp [dedupAdjByPtr]
  | case2 a rest ih =>
    intro hs
    obtain ⟨ha, hrest⟩ := List.sorted_cons.mp hs
    have hrest' :
        (rest.dropWhile fun b => b.ptr = a.ptr).Sorted
          fun x y => x.ptr ≤ y.ptr :=
      hrest.sublist (List.dropWhile_sublist _)
    rw [dedupAdjByPtr]
    refine List.sorted_cons.mpr ⟨?_, ih hrest'⟩
    intro y hy
    exact mem_dropWhile_ptr_lt a rest hrest ha y (dedupAdj_subset _ y hy)

theorem strict_sorted_nodup_ptrs (l : List RefM)
    (h : l.Sorted fun x y => x.ptr < y.ptr) :
    (l.map RefM.ptr).Nodup := by
  rw [List.Nodup, List.pairwise_map]
  exact h.imp fun hlt => Nat.ne_of_lt hlt

theorem nodeEntries_replicate_none (n : Nat) :
    nodeEntries (List.replicate n (none : Option RefM)) = [] := by
  induction n with
  | zero => rfl
  | succ n ih => simp [List.replicate_succ, nodeEntries] at ih ⊢

theorem nodeEntries_map_some (l : List RefM) :
    nodeEntries (l.map some) = l := by
  induction l with
  | nil => rfl
  | cons a rest ih => simp [nodeEntries] at ih ⊢

theorem nodeEntries_append (l₁ l₂ : List (Option RefM)) :
    nodeEntries (l₁ ++ l₂) = nodeEntries l₁ ++ nodeEntries l₂ := by
  simp [nodeEntries]

/-- `WatchSet::squash` leaves exactly the deduplicated fresh refs, in
sorted order: collect, stable-sort by address, drop all but the first of
each address run, drop stale refs, and the repacking flattens back to
precisely that survivor list. -/
theorem setEntries_squash (s : WatchSetM) (σ : Cycles) :
    setEntries (s.squash σ)
      = (dedupAdjByPtr (sortByPtr (setEntries s))).filter (isFresh σ) := by
  obtain ⟨l⟩ := s
  cases l with
  | none =>
    simp [WatchSetM.squash, setEntries, sortByPtr, List.insertionSort,
      dedupAdjByPtr]
  | some head =>
    have hcol :
        ((head.data :: head.rest).map nodeEntries).flatten
          = setEntries ⟨some head⟩ := rfl
    rw [WatchSetM.squash]
    simp only [hcol]
    set survivors :=
      (dedupAdjByPtr (sortByPtr (setEntries ⟨some head⟩))).filter
        (isFresh σ) with hsurv
    set rem := survivors.length % 4 with hrem
    have hdl : (survivors.drop rem).length = survivors.length - rem := by
      simp
    have hdvd : 4 ∣ (survivors.drop rem).length := by
      rw [hdl, hrem]
      omega
    show nodeEntries
        (List.replicate (4 - rem) none ++ (survivors.take rem).map some)
      ++ (((chunks4 (survivors.drop rem)).map (List.map some)).map
            nodeEntries).flatten = survivors
    rw [nodeEntries_append, nodeEntries_replicate_none,
      nodeEntries_map_some, List.nil_append]
    have hnodes :
        ((chunks4 (survivors.drop rem)).map (List.map some)).map
            nodeEntries
          = chunks4 (survivors.drop rem) := by
      rw [List.map_map]
      have hpt : ∀ chunk ∈ chunks4 (survivors.drop rem),
          (nodeEntries ∘ List.map some) chunk = id chunk :=
        fun chunk _ => nodeEntries_map_some chunk
      rw [List.map_congr_left hpt, List.map_id]
    rw [hnodes, chunks4_flatten _ hdvd, List.take_append_drop]

/-- Node count after `squash`: one head node plus one node per full
chunk of four survivors. -/
theorem nodesOf_squash (head : HeadM) (σ : Cycles) :
    nodesOf ((⟨some head⟩ : WatchSetM).squash σ)
      = 1 + ((dedupAdjByPtr (sortByPtr (setEntries ⟨some head⟩))).filter
          (isFresh σ)).length / 4 := by
  rw [WatchSetM.squash]
  set survivors :=
    (dedupAdjByPtr (sortByPtr (setEntries ⟨some head⟩))).filter
      (isFresh σ) with hsurv
  set rem := survivors.length % 4 with hrem
  have hdl : (survivors.drop rem).length = survivors.length - rem := by
    simp
  have hdvd : 4 ∣ (survivors.drop rem).length := by
    rw [hdl, hrem]
    omega
  show 1 + ((chunks4 (survivors.drop rem)).map (List.map some)).length
      = 1 + survivors.length / 4
  rw [List.length_map, chunks4_length _ hdvd, hdl, hrem]
  omega

theorem add_unfold (head : HeadM) (r : RefM) (total : Nat) (σ : Cycles) :
    WatchSetM.add ⟨some head⟩ r total σ
      = if head.data.head? = some none ∧ head.nodes > nodeLimit total
        then (WatchSetM.mk (some (insertedHead head r))).squash σ
        else ⟨some (insertedHead head r)⟩ := by
  rw [WatchSetM.add, insertedHead]
  cases hp : (addPassRev head.data.reverse r r.cycle).2 <;>
    simp [hp]

theorem squash_entries_fresh_mem (s : WatchSetM) (σ : Cycles) :
    ∀ w ∈ setEntries (s.squash σ), isFresh σ w = true ∧ w ∈ setEntries s := by
  intro w hw
  rw [setEntries_squash] at hw
  obtain ⟨hmem, hfresh⟩ := List.mem_filter.mp hw
  exact ⟨hfresh,
    (sortByPtr_perm (setEntries s)).subset (dedupAdj_subset _ w hmem)⟩

theorem squash_ptrs_nodup (s : WatchSetM) (σ : Cycles) :
    ((setEntries (s.squash σ)).map RefM.ptr).Nodup := by
  rw [setEntries_squash]
  have hstrict := dedupAdj_strict _ (sortByPtr_sorted (setEntries s))
  have hnd := strict_sorted_nodup_ptrs _ hstrict
  exact hnd.sublist ((List.filter_sublist _).map RefM.ptr)

/-- Counterexample to claim C9's placement clause, at a concrete input:
adding one ref to a fresh `WatchSet` does not fill the (empty) tail slot
of the existing head node — the pass passes over empty slots, the
leftover ref goes into the last slot of a **new** node pushed in front,
and the node count becomes 2 with the old empty node retained, whereas
the claim's described insertion (modelled by `addSpecClaim`) fills the
head node's tail slot and keeps the node count at 1. -/
theorem add_first_empty_slot_counterexample :
    WatchSetM.add WatchSetM.empty ⟨1, 0⟩ 0 (fun _ => 0)
      = ⟨some ⟨[none, none, none, some ⟨1, 0⟩], [emptyNode], 2⟩⟩
    ∧ addSpecClaim WatchSetM.empty ⟨1, 0⟩
        = ⟨some ⟨[none, none, none, some ⟨1, 0⟩], [], 1⟩⟩
    ∧ WatchSetM.add WatchSetM.empty ⟨1, 0⟩ 0 (fun _ => 0)
        ≠ addSpecClaim WatchSetM.empty ⟨1, 0⟩ := by
  refine ⟨by decide, by decide, by decide⟩

/-- Claim C9, as amended.  `WatchSet::add` scans the head node's four
slots from tail to head carrying the new ref: a slot holding a
greater-address ref is swapped with the carried ref, a slot holding the
same watch absorbs it (keeping the added ref's generation) and ends the
scan, and empty slots are passed over rather than filled; a ref still
carried after the scan goes into the last slot of a fresh node pushed in
front, incrementing the node count, while a merge leaves the count
unchanged.  Compaction runs exactly when, at entry, the head node's
first slot is empty and the node count exceeds
`min(total+1, 64·(log2(max(total,1))+1))`; `squash` collects all refs,
deduplicates by watch address, drops stale-generation refs and repacks
the survivors. -/
theorem add_insertion_pass_spec (head : HeadM) (r : RefM) (total : Nat)
    (σ : Cycles) (hr : 0 < r.ptr)
    (hpos : ∀ w ∈ nodeEntries head.data, 0 < w.ptr) :
    (addPassRev head.data.reverse r r.cycle).1.length
        = head.data.length
    ∧ (∀ i, head.data.reverse.get? i = some none →
        (addPassRev head.data.reverse r r.cycle).1.get? i = some none)
    ∧ (match (addPassRev head.data.reverse r r.cycle).2 with
       | some w =>
           (nodeEntries (addPassRev head.data.reverse r r.cycle).1 :
               Multiset RefM) + {w}
             = (nodeEntries head.data.reverse : Multiset RefM) + {r}
       | none =>
           ∃ p,
             ((nodeEntries
                 (addPassRev head.data.reverse r r.cycle).1).map
                 RefM.ptr : Multiset Nat) + {p}
               = ((nodeEntries head.data.reverse).map RefM.ptr :
                   Multiset Nat) + {r.ptr}
             ∧ ∃ w ∈ nodeEntries (addPassRev head.data.reverse r r.cycle).1,
                 w.ptr = p ∧ w.cycle = r.cycle)
    ∧ (¬(head.data.head? = some none ∧ head.nodes > nodeLimit total) →
        nodesOf (WatchSetM.add ⟨some head⟩ r total σ)
          = if (addPassRev head.data.reverse r r.cycle).2.isSome
            then head.nodes + 1 else head.nodes)
    ∧ ((head.data.head? = some none ∧ head.nodes > nodeLimit total) →
        WatchSetM.add ⟨some head⟩ r total σ
          = (WatchSetM.mk (some (insertedHead head r))).squash σ)
    ∧ (∀ s : WatchSetM,
        setEntries (s.squash σ)
          = (dedupAdjByPtr (sortByPtr (setEntries s))).filter (isFresh σ))
    ∧ (∀ s : WatchSetM, ((setEntries (s.squash σ)).map RefM.ptr).Nodup)
    ∧ (∀ s : WatchSetM, ∀ w ∈ setEntries (s.squash σ),
        isFresh σ w = true ∧ w ∈ setEntries s) := by
  have hposrev : ∀ w ∈ nodeEntries head.data.reverse, 0 < w.ptr := by
    intro w hw
    apply hpos
    have : nodeEntries head.data.reverse = (nodeEntries head.data).reverse := by
      simp [nodeEntries]
    rw [this] at hw
    exact List.mem_reverse.mp hw
  refine ⟨?_, ?_, ?_, ?_, ?_, ?_, ?_, ?_⟩
  · rw [addPassRev_length, List.length_reverse]
  · exact fun i => addPassRev_none_preserved r.cycle head.data.reverse r i
  · exact addPassRev_entries r.cycle head.data.reverse r hr hposrev
  · intro hcond
    rw [add_unfold, if_neg hcond]
    cases hp : (addPassRev head.data.reverse r r.cycle).2 <;>
      simp [nodesOf, insertedHead, hp]
  · intro hcond
    rw [add_unfold, if_pos hcond]
  · exact fun s => setEntries_squash s σ
  · exact fun s => squash_ptrs_nodup s σ
  · exact fun s => squash_entries_fresh_mem s σ

/-- Witness instantiating `add_insertion_pass_spec` on a concrete head
node: adding a ref for watch `3` to a head node holding watches `2` and
`5` swaps `3` into `5`'s slot, carries `5` out into a fresh node, and
the node count becomes 2. -/
theorem add_insertion_pass_spec_witness :
    ((0 < (3 : Nat))
      ∧ ∀ w ∈ nodeEntries [none, none, some (RefM.mk 2 1),
          some (RefM.mk 5 0)], 0 < w.ptr)
    ∧ nodesOf (WatchSetM.add
        ⟨some ⟨[none, none, some ⟨2, 1⟩, some ⟨5, 0⟩], [], 1⟩⟩
        ⟨3, 7⟩ 1 (fun _ => 0)) = 2 :=
  ⟨⟨by decide, by decide⟩, by
    have h := (add_insertion_pass_spec
      ⟨[none, none, some ⟨2, 1⟩, some ⟨5, 0⟩], [], 1⟩ ⟨3, 7⟩ 1
      (fun _ => 0) (by decide) (by decide)).2.2.2.1 (by decide)
    exact h.trans (by decide)⟩

end DryingPaint
